import Mathlib

/-!
Verification of the workspace / module-build / save-load / run-session core of
the `fret` library (`src/fret/workspace.py`), against its natural-language
specification.

The embedding is shallow: Python dicts become association lists with
first-occurrence lookup and in-place overwrite (Python dicts have unique keys,
which the operations below preserve), Python objects built by
`Workspace.build` become terms of an inductive `Obj` type recording the
constructed class, the parameters passed to the constructor, the attached
workspace back-reference, the build name and the optional build spec, and the
process-global `configurables` registry is threaded as an explicit argument.
Recursive submodule construction is modelled with explicit fuel, since the
source performs an unbounded recursive descent with no cycle detection.
-/

namespace Fret

/-! ## Python dict operations on association lists -/

/-- First-occurrence lookup, `d.get(k)` / `d[k]` on a Python dict. -/
def lookupD {α : Type} : List (String × α) → String → Option α
  | [], _ => none
  | (k', v) :: rest, k => if k' = k then some v else lookupD rest k

/-- `d[k] = v` on a Python dict: overwrite the existing entry in place, or
append a new one. -/
def dictSet {α : Type} : List (String × α) → String → α → List (String × α)
  | [], k, v => [(k, v)]
  | (k', v') :: rest, k, v =>
    if k' = k then (k, v) :: rest else (k', v') :: dictSet rest k v

/-- `d.update(u)` on a Python dict: set every key of `u` in `d`, in order. -/
def dictUpdate {α : Type} (d : List (String × α)) (u : List (String × α)) :
    List (String × α) :=
  u.foldl (fun acc kv => dictSet acc kv.1 kv.2) d

/-- `del d[k]` on a Python dict: remove the (unique) entry for `k`. -/
def dictDel {α : Type} : List (String × α) → String → List (String × α)
  | [], _ => []
  | (k', v) :: rest, k =>
    if k' = k then rest else (k', v) :: dictDel rest k

/-! ## Values and built objects -/

mutual
/-- A configuration/parameter value: strings, integers, booleans, built
objects (eager submodules) and deferred `Builder` handles.  A `Builder`
stores the workspace it is bound to (represented by the workspace's module
table, its build-relevant state) together with the bound module name, as in
`Builder.__init__`. -/
inductive Val : Type where
  | vstr : String → Val
  | vint : Int → Val
  | vbool : Bool → Val
  | vobj : Obj → Val
  | vbuilder : List (String × String × List (String × Val)) → String → Val

/-- An object returned by `Workspace.build`: the class it was constructed
from, the parameter dict passed to the constructor (which becomes the
object's configuration), the attached workspace back-reference (`obj.ws`,
represented by the workspace's module table), the attached build name
(`obj.build_name`), and the build spec (`obj.spec`), present iff overrides
were given. -/
inductive Obj : Type where
  | mk : String → List (String × Val) → List (String × String × List (String × Val)) →
      String → Option (List (String × Val)) → Obj
end

/-- The module table of a workspace (`Workspace._modules`):
name ↦ (class name, base parameter dict). -/
abbrev Modules := List (String × String × List (String × Val))

def Obj.cls : Obj → String
  | .mk c _ _ _ _ => c

def Obj.config : Obj → List (String × Val)
  | .mk _ cfg _ _ _ => cfg

def Obj.ws : Obj → Modules
  | .mk _ _ w _ _ => w

def Obj.build_name : Obj → String
  | .mk _ _ _ n _ => n

def Obj.spec : Obj → Option (List (String × Val))
  | .mk _ _ _ _ s => s

/-- Is the value a Python string?  (`isinstance(cfg[sub], str)`) -/
def Val.isStr : Val → Bool
  | .vstr _ => true
  | _ => false

/-! ## Registry of configurable types -/

/-- What the `configurables` registry records about a configurable class:
its submodule slot names (`cls.submodules`) and its eager-build flag
(`cls._build_subs`, set by `App.configurable`). -/
structure ClsDesc where
  submodules : List String
  build_subs : Bool

/-- The process-global `configurables` registry: class name ↦ descriptor. -/
abbrev Registry := List (String × ClsDesc)

/-! ## Workspace.build -/

/-- Errors surfaced by `Workspace.build`: `NotConfiguredError` when the name
has no entry in the module table, the `KeyError('definition of module ...
not found')` (the spec's `ModuleNotFound`) when the configured class name is
absent from the registry, and exhaustion of the recursion fuel (the source
recurses without bound). -/
inductive BuildErr : Type where
  | notConfigured : String → BuildErr
  | moduleNotFound : String → BuildErr
  | outOfFuel : BuildErr
deriving DecidableEq

/-- `cfg[sub]` is absent or a string: the submodule slot must be resolved
(`if sub not in cfg or isinstance(cfg[sub], str)`). -/
def needsResolve : Option Val → Bool
  | none => true
  | some (.vstr _) => true
  | some _ => false

/-- `cfg.get(sub) or sub`: the configured submodule name, falling back to the
slot name when the entry is absent or falsy (the empty string). -/
def getOrName (cfg : List (String × Val)) (sub : String) : String :=
  match lookupD cfg sub with
  | some (.vstr s) => if s = "" then sub else s
  | _ => sub

/-- The submodule loop of `Workspace.build`: for each slot whose merged value
is absent or a string, either build the named module eagerly (`bld` is the
recursive `self.build`) or substitute a `Builder` handle bound to the current
workspace, writing the result back into the parameter dict. -/
def resolveSubs (wsMods : Modules) (bsubs : Bool)
    (bld : String → Except BuildErr Obj) :
    List String → List (String × Val) → Except BuildErr (List (String × Val))
  | [], cfg => .ok cfg
  | sub :: rest, cfg =>
    if needsResolve (lookupD cfg sub) then
      match (if bsubs then (bld (getOrName cfg sub)).map Val.vobj
             else .ok (Val.vbuilder wsMods (getOrName cfg sub))) with
      | .error e => .error e
      | .ok v => resolveSubs wsMods bsubs bld rest (dictSet cfg sub v)
    else resolveSubs wsMods bsubs bld rest cfg

/-- `Workspace.build(name, **kwargs)`, with explicit registry and recursion
fuel.  Looks up the configured `(class name, base params)`, merges the
overrides onto a copy of the base parameters, resolves the class in the
registry, resolves submodule slots (recursing with one unit of fuel less),
constructs the object and attaches `ws`, `build_name` and, iff overrides
were given, `spec`. -/
def Workspace.build (reg : Registry) :
    Nat → Modules → String → List (String × Val) → Except BuildErr Obj
  | 0, _, _, _ => .error .outOfFuel
  | fuel + 1, mods, name, kwargs =>
    match lookupD mods name with
    | none => .error (.notConfigured name)
    | some (clsName, base) =>
      let cfg := dictUpdate base kwargs
      match lookupD reg clsName with
      | none => .error (.moduleNotFound clsName)
      | some cls =>
        match resolveSubs mods cls.build_subs
            (fun t => Workspace.build reg fuel mods t []) cls.submodules cfg with
        | .error e => .error e
        | .ok cfg =>
          .ok (.mk clsName cfg mods name
            (if kwargs.isEmpty then none else some kwargs))

/-- `Workspace.register(name, module, **kwargs)` for a class argument:
record `(class name, kwargs)` under `name`, overwriting any prior entry. -/
def Workspace.register (mods : Modules) (name clsName : String)
    (kwargs : List (String × Val)) : Modules :=
  dictSet mods name (clsName, kwargs)

/-- A sequence of `register` calls applied to a workspace's module table. -/
def applyRegisters (mods : Modules) :
    List (String × String × List (String × Val)) → Modules
  | [] => mods
  | (n, c, kw) :: rest => applyRegisters (Workspace.register mods n c kw) rest

/-! ## Workspace.save / Workspace.load -/

/-- `Workspace.config_dict()`: one section per module name, holding the
reserved `'__module'` key (set first, then overwritten by the stored
parameters if they happen to contain it, as `dict({'__module': c}, **cfg)`
does) plus the parameter mapping. -/
def Workspace.config_dict (mods : Modules) :
    List (String × List (String × Val)) :=
  mods.map (fun nc => (nc.1, dictUpdate [("__module", Val.vstr nc.2.1)] nc.2.2))

/-- One section of a persisted configuration dict, parsed as in
`Workspace.__init__`: read `cfg['__module']` as the class name and delete it
from the parameters.  `none` when the reserved key is missing or is not a
string (the source would raise). -/
def parseEntry (cfg : List (String × Val)) :
    Option (String × List (String × Val)) :=
  match lookupD cfg "__module" with
  | some (.vstr cls) => some (cls, dictDel cfg "__module")
  | _ => none

/-- Parse a whole configuration dict into a module table, as the loop in
`Workspace.__init__` does. -/
def parseConf : List (String × List (String × Val)) → Option Modules
  | [] => some []
  | sec :: rest => do
    let e ← parseEntry sec.2
    let r ← parseConf rest
    pure ((sec.1, e) :: r)

/-- The triple pickled by `Workspace.save`: the full configuration table in
force at save time, the saved object's build-time overrides (its `spec`,
empty when none were given), and its mutable state (`obj.state_dict()`,
which is the empty dict for a configurable class declared without `states`
and without its own `state_dict` hook — the default contract, and the only
state shape the configuration claims depend on). -/
structure Snapshot where
  env : List (String × List (String × Val))
  args : List (String × Val)
  state : List (String × Val)

/-- `Workspace.save(obj, tag)`: capture the current configuration table, the
object's build spec and its state. -/
def Workspace.save (mods : Modules) (obj : Obj) : Snapshot :=
  { env := Workspace.config_dict mods
  , args := match obj.spec with | some s => s | none => []
  , state := [] }

/-- Errors surfaced by `Workspace.load`. -/
inductive LoadErr : Type where
  | badConf : LoadErr
  | build : BuildErr → LoadErr

/-- `Workspace.load(name, tag)`: read the snapshot, construct a new ephemeral
workspace seeded with the snapshot's environment — merged over whatever
`config.toml` the workspace directory holds at load time (`disk`), with the
snapshot winning per top-level name — and rebuild `name` there with the
snapshot's `args` as overrides.  (`load_state_dict` then restores the saved
state; it never touches the object's configuration.)  The live workspace
`live` on which `load` is invoked contributes nothing but its directory
path, which is how reloads are independent of `register` calls made on it
after the save. -/
def Workspace.load (reg : Registry) (fuel : Nat) (live : Modules)
    (disk : Option (List (String × List (String × Val)))) (snap : Snapshot)
    (name : String) : Except LoadErr Obj :=
  let _ := live
  let conf := match disk with
    | none => snap.env
    | some d => dictUpdate d snap.env
  match parseConf conf with
  | none => .error .badConf
  | some mods => (Workspace.build reg fuel mods name snap.args).mapError .build

/-- Well-formedness of a module table as Python maintains it: every stored
parameter dict has unique keys and does not use the reserved `'__module'`
key. -/
def wfMods (mods : Modules) : Bool :=
  mods.all (fun nc =>
    (nc.2.2.map Prod.fst).Nodup && (lookupD nc.2.2 "__module").isNone)

/-! ## Dictionary lemmas -/

theorem lookupD_dictSet_self {α : Type} (d : List (String × α)) (k : String)
    (v : α) : lookupD (dictSet d k v) k = some v := by
  induction d with
  | nil => simp [dictSet, lookupD]
  | cons kv rest ih =>
    by_cases h : kv.1 = k <;> simp [dictSet, lookupD, h, ih]

theorem lookupD_dictSet_ne {α : Type} (d : List (String × α)) (k k' : String)
    (v : α) (h : k ≠ k') : lookupD (dictSet d k v) k' = lookupD d k' := by
  induction d with
  | nil => simp [dictSet, lookupD, h]
  | cons kv rest ih =>
    obtain ⟨a, b⟩ := kv
    by_cases hk : a = k
    · subst hk
      simp [dictSet, lookupD, h]
    · simp [dictSet, lookupD, hk, ih]

theorem dictUpdate_cons {α : Type} (d : List (String × α)) (k : String)
    (v : α) (u : List (String × α)) :
    dictUpdate d ((k, v) :: u) = dictUpdate (dictSet d k v) u := rfl

theorem lookupD_dictUpdate_not_mem {α : Type} (d u : List (String × α))
    (k : String) (h : k ∉ u.map Prod.fst) :
    lookupD (dictUpdate d u) k = lookupD d k := by
  induction u generalizing d with
  | nil => rfl
  | cons kv rest ih =>
    obtain ⟨a, b⟩ := kv
    simp only [List.map_cons, List.mem_cons] at h
    push_neg at h
    rw [dictUpdate_cons, ih _ h.2, lookupD_dictSet_ne d a k b (Ne.symm h.1)]

/-- Merge semantics of `cfg.copy(); cfg.update(kwargs)`: lookups hit the
override when one is given and fall back to the base otherwise. -/
theorem lookupD_dictUpdate {α : Type} (d u : List (String × α)) (k : String)
    (hu : (u.map Prod.fst).Nodup) :
    lookupD (dictUpdate d u) k = (lookupD u k).or (lookupD d k) := by
  induction u generalizing d with
  | nil => simp [dictUpdate, lookupD]
  | cons kv rest ih =>
    obtain ⟨a, b⟩ := kv
    simp only [List.map_cons, List.nodup_cons] at hu
    rw [dictUpdate_cons]
    by_cases hk : a = k
    · subst hk
      rw [lookupD_dictUpdate_not_mem _ _ _ hu.1, lookupD_dictSet_self]
      simp [lookupD]
    · rw [ih _ hu.2, lookupD_dictSet_ne d a k b hk]
      simp [lookupD, hk]

theorem dictSet_append_new {α : Type} (d : List (String × α)) (k : String)
    (v : α) (h : k ∉ d.map Prod.fst) : dictSet d k v = d ++ [(k, v)] := by
  induction d with
  | nil => rfl
  | cons kv rest ih =>
    obtain ⟨a, b⟩ := kv
    simp only [List.map_cons, List.mem_cons] at h
    push_neg at h
    simp [dictSet, Ne.symm h.1, ih h.2]

/-- Updating a dict with a fresh, duplicate-free batch of keys appends them. -/
theorem dictUpdate_disjoint {α : Type} (d u : List (String × α))
    (hu : (u.map Prod.fst).Nodup)
    (hdis : ∀ k ∈ u.map Prod.fst, k ∉ d.map Prod.fst) :
    dictUpdate d u = d ++ u := by
  induction u generalizing d with
  | nil => simp [dictUpdate]
  | cons kv rest ih =>
    obtain ⟨a, b⟩ := kv
    simp only [List.map_cons, List.nodup_cons] at hu
    have h1 : a ∉ d.map Prod.fst := hdis a (by simp)
    rw [dictUpdate_cons, dictSet_append_new d a b h1,
      ih (d ++ [(a, b)]) hu.2 ?_]
    · simp
    · intro k hk
      simp only [List.map_append, List.mem_append, List.map_cons,
        List.map_nil, List.mem_singleton]
      push_neg
      refine ⟨hdis k (by simp [hk]), fun he => ?_⟩
      exact absurd hk (he ▸ hu.1)

theorem lookupD_eq_none {α : Type} (d : List (String × α)) (k : String) :
    lookupD d k = none ↔ k ∉ d.map Prod.fst := by
  induction d with
  | nil => simp [lookupD]
  | cons kv rest ih =>
    obtain ⟨a, b⟩ := kv
    by_cases h : a = k
    · subst h
      simp [lookupD]
    · simp [lookupD, h, ih, Ne.symm h]

/-- Round-trip of one configuration section: writing `'__module'` first and
then parsing it back recovers the class name and the original parameters,
provided the parameters are well-formed. -/
theorem parseEntry_config_section (clsName : String)
    (cfg : List (String × Val)) (hnd : (cfg.map Prod.fst).Nodup)
    (hm : (lookupD cfg "__module").isNone) :
    parseEntry (dictUpdate [("__module", Val.vstr clsName)] cfg) =
      some (clsName, cfg) := by
  have hmem : "__module" ∉ cfg.map Prod.fst :=
    (lookupD_eq_none cfg "__module").mp (Option.isNone_iff_eq_none.mp hm)
  have hupd : dictUpdate [("__module", Val.vstr clsName)] cfg =
      ("__module", Val.vstr clsName) :: cfg := by
    have := dictUpdate_disjoint [("__module", Val.vstr clsName)] cfg hnd
      (fun k hk => by
        simp only [List.map_cons, List.map_nil, List.mem_singleton]
        exact fun he => hmem (he ▸ hk))
    simpa using this
  rw [hupd]
  simp [parseEntry, lookupD, dictDel]

/-- Parsing the dict produced by `config_dict` recovers the module table. -/
theorem parseConf_config_dict (mods : Modules) (hwf : wfMods mods = true) :
    parseConf (Workspace.config_dict mods) = some mods := by
  induction mods with
  | nil => rfl
  | cons nc rest ih =>
    obtain ⟨n, c, cfg⟩ := nc
    simp only [wfMods, List.all_cons, Bool.and_eq_true, decide_eq_true_eq]
      at hwf
    have h1 := parseEntry_config_section c cfg hwf.1.1 hwf.1.2
    have h2 : parseConf (Workspace.config_dict rest) = some rest :=
      ih hwf.2
    simp only [Workspace.config_dict, List.map_cons] at h2 ⊢
    simp [parseConf, h1, h2]

/-! ## Inversion lemmas for `Workspace.build` -/

/-- A successful build carries a build spec exactly when overrides were
given. -/
theorem build_ok_spec (reg : Registry) (fuel : Nat) (mods : Modules)
    (name : String) (kwargs : List (String × Val)) (obj : Obj)
    (hb : Workspace.build reg fuel mods name kwargs = .ok obj) :
    obj.spec = if kwargs.isEmpty then none else some kwargs := by
  cases fuel with
  | zero => simp [Workspace.build] at hb
  | succ fuel =>
    simp only [Workspace.build] at hb
    split at hb
    · exact absurd hb (by simp)
    · split at hb
      · exact absurd hb (by simp)
      · split at hb
        · exact absurd hb (by simp)
        · have hobj := Except.ok.inj hb
          subst hobj
          rfl

/-- Inverting a successful build: its configuration is the merged parameter
dict after submodule resolution, and the object records the class, the
workspace, the build name and the optional spec. -/
theorem build_ok_inv (reg : Registry) (fuel : Nat) (mods : Modules)
    (name clsName : String) (base kwargs : List (String × Val)) (cls : ClsDesc)
    (obj : Obj)
    (hm : lookupD mods name = some (clsName, base))
    (hc : lookupD reg clsName = some cls)
    (hb : Workspace.build reg (fuel + 1) mods name kwargs = .ok obj) :
    resolveSubs mods cls.build_subs
      (fun t => Workspace.build reg fuel mods t [])
      cls.submodules (dictUpdate base kwargs) = .ok obj.config
    ∧ obj = .mk clsName obj.config mods name
        (if kwargs.isEmpty then none else some kwargs) := by
  simp only [Workspace.build, hm, hc] at hb
  split at hb
  · exact absurd hb (by simp)
  · rename_i cfg hres
    have hobj := Except.ok.inj hb
    subst hobj
    exact ⟨hres, rfl⟩

/-! ## Claim theorems: build (C2, C3) -/

/-- C2. For every configured module name and every override keyword set,
`Workspace.build` merges the overrides onto the stored base parameters with
overrides winning on key conflicts, constructs the object from the merged
parameters (with submodule slots resolved), attaches the workspace
back-reference and the build name, and attaches a build-spec attribute iff
at least one override keyword was given. -/
theorem build_merges_overrides_and_attaches (reg : Registry) (fuel : Nat)
    (mods : Modules) (name clsName : String)
    (base kwargs cfg : List (String × Val)) (cls : ClsDesc)
    (hm : lookupD mods name = some (clsName, base))
    (hc : lookupD reg clsName = some cls)
    (hk : (kwargs.map Prod.fst).Nodup)
    (hr : resolveSubs mods cls.build_subs
        (fun t => Workspace.build reg fuel mods t []) cls.submodules
        (dictUpdate base kwargs) = .ok cfg) :
    (Workspace.build reg (fuel + 1) mods name kwargs =
      .ok (.mk clsName cfg mods name
        (if kwargs.isEmpty then none else some kwargs)))
    ∧ (∀ k, lookupD (dictUpdate base kwargs) k =
        (lookupD kwargs k).or (lookupD base k))
    ∧ (∀ obj, Workspace.build reg (fuel + 1) mods name kwargs = .ok obj →
        obj.ws = mods ∧ obj.build_name = name ∧
          (obj.spec.isSome ↔ kwargs ≠ [])) := by
  have heq : Workspace.build reg (fuel + 1) mods name kwargs =
      .ok (.mk clsName cfg mods name
        (if kwargs.isEmpty then none else some kwargs)) := by
    simp [Workspace.build, hm, hc, hr]
  refine ⟨heq, fun k => lookupD_dictUpdate base kwargs k hk, fun obj hobj => ?_⟩
  rw [heq] at hobj
  cases hobj
  refine ⟨rfl, rfl, ?_⟩
  cases kwargs <;> simp [Obj.spec]

/-- C3. `Workspace.build` raises `NotConfigured` whenever the requested name
has no entry in the configuration table, and raises `ModuleNotFound`
(`KeyError('definition of module ... not found')`) whenever the configured
class name has no entry in the `configurables` registry; in both cases no
object is constructed. -/
theorem build_missing_config_and_missing_module (reg : Registry) (fuel : Nat)
    (mods : Modules) (name : String) (kwargs : List (String × Val)) :
    (lookupD mods name = none →
      Workspace.build reg (fuel + 1) mods name kwargs =
        .error (.notConfigured name)
      ∧ ∀ obj, Workspace.build reg (fuel + 1) mods name kwargs ≠ .ok obj)
    ∧ (∀ clsName base, lookupD mods name = some (clsName, base) →
        lookupD reg clsName = none →
        Workspace.build reg (fuel + 1) mods name kwargs =
          .error (.moduleNotFound clsName)
        ∧ ∀ obj, Workspace.build reg (fuel + 1) mods name kwargs ≠ .ok obj) := by
  constructor
  · intro h
    have he : Workspace.build reg (fuel + 1) mods name kwargs =
        .error (.notConfigured name) := by
      simp [Workspace.build, h]
    exact ⟨he, fun obj hc => by rw [he] at hc; exact Except.noConfusion hc⟩
  · intro clsName base h1 h2
    have he : Workspace.build reg (fuel + 1) mods name kwargs =
        .error (.moduleNotFound clsName) := by
      simp [Workspace.build, h1, h2]
    exact ⟨he, fun obj hc => by rw [he] at hc; exact Except.noConfusion hc⟩

/-! ## Sample registry and workspace for witnesses -/

def regSample : Registry :=
  [("Simple", ⟨[], true⟩), ("Model", ⟨["sub"], true⟩),
   ("Lazy", ⟨["sub"], false⟩)]

def modsSample : Modules :=
  [("main", ("Model", [("lr", Val.vint 1), ("sub", Val.vstr "enc")])),
   ("enc", ("Simple", [("dim", Val.vint 8)])),
   ("lazy", ("Lazy", [("sub", Val.vstr "enc")]))]

def encObjSample : Obj :=
  .mk "Simple" [("dim", Val.vint 8)] modsSample "enc" none

def objSample : Obj :=
  .mk "Model" [("lr", Val.vint 2), ("sub", Val.vobj encObjSample)] modsSample
    "main" (some [("lr", Val.vint 2)])

/-! ## Submodule resolution (C4) -/

theorem getOrName_congr (a b : List (String × Val)) (sub : String)
    (h : lookupD a sub = lookupD b sub) :
    getOrName a sub = getOrName b sub := by
  simp [getOrName, h]

/-- The submodule loop never touches keys outside the submodule list. -/
theorem resolveSubs_untouched (wsMods : Modules) (bsubs : Bool)
    (bld : String → Except BuildErr Obj) :
    ∀ (subs : List String) (cfg cfg' : List (String × Val)),
      resolveSubs wsMods bsubs bld subs cfg = .ok cfg' →
      ∀ k, k ∉ subs → lookupD cfg' k = lookupD cfg k := by
  intro subs
  induction subs with
  | nil =>
    intro cfg cfg' h k _
    rw [← Except.ok.inj h]
  | cons sub rest ih =>
    intro cfg cfg' h k hk
    simp only [List.mem_cons] at hk
    push_neg at hk
    simp only [resolveSubs] at h
    by_cases hneed : needsResolve (lookupD cfg sub) = true
    · rw [if_pos hneed] at h
      cases hsc : (if bsubs then (bld (getOrName cfg sub)).map Val.vobj
          else .ok (Val.vbuilder wsMods (getOrName cfg sub))) with
      | error e => rw [hsc] at h; simp at h
      | ok v =>
        rw [hsc] at h
        have h' : resolveSubs wsMods bsubs bld rest (dictSet cfg sub v) =
            .ok cfg' := h
        rw [ih _ _ h' k hk.2, lookupD_dictSet_ne cfg sub k v (Ne.symm hk.1)]
    · rw [if_neg hneed] at h
      exact ih _ _ h k hk.2

/-- What the submodule loop leaves at each slot: untouched when the incoming
value is concrete, otherwise the eagerly built object or the deferred
`Builder` handle, looked up under the configured (or default) name. -/
theorem resolveSubs_slot (wsMods : Modules) (bsubs : Bool)
    (bld : String → Except BuildErr Obj) :
    ∀ (subs : List String) (cfg cfg' : List (String × Val)),
      subs.Nodup →
      resolveSubs wsMods bsubs bld subs cfg = .ok cfg' →
      ∀ sub ∈ subs,
        (needsResolve (lookupD cfg sub) = false →
          lookupD cfg' sub = lookupD cfg sub)
        ∧ (needsResolve (lookupD cfg sub) = true →
            (bsubs = true → ∃ so, bld (getOrName cfg sub) = .ok so ∧
              lookupD cfg' sub = some (Val.vobj so))
            ∧ (bsubs = false →
              lookupD cfg' sub =
                some (Val.vbuilder wsMods (getOrName cfg sub)))) := by
  intro subs
  induction subs with
  | nil =>
    intro _ _ _ _ sub hs
    exact absurd hs (List.not_mem_nil sub)
  | cons head rest ih =>
    intro cfg cfg' hnd h sub hs
    simp only [List.nodup_cons] at hnd
    simp only [resolveSubs] at h
    rcases List.mem_cons.mp hs with rfl | hs
    · by_cases hneed : needsResolve (lookupD cfg sub) = true
      · rw [if_pos hneed] at h
        refine ⟨fun hf => by rw [hneed] at hf; exact Bool.noConfusion hf,
          fun _ => ?_⟩
        constructor
        · intro hbs
          subst hbs
          rw [if_pos rfl] at h
          cases hbld : bld (getOrName cfg sub) with
          | error e => rw [hbld] at h; simp [Except.map] at h
          | ok so =>
            rw [hbld] at h
            have h' : resolveSubs wsMods true bld rest
                (dictSet cfg sub (Val.vobj so)) = .ok cfg' := h
            refine ⟨so, rfl, ?_⟩
            rw [resolveSubs_untouched wsMods true bld rest _ _ h' sub hnd.1,
              lookupD_dictSet_self]
        · intro hbs
          subst hbs
          rw [if_neg (by simp)] at h
          have h' : resolveSubs wsMods false bld rest
              (dictSet cfg sub (Val.vbuilder wsMods (getOrName cfg sub))) =
                .ok cfg' := h
          rw [resolveSubs_untouched wsMods false bld rest _ _ h' sub hnd.1,
            lookupD_dictSet_self]
      · rw [if_neg hneed] at h
        exact ⟨fun _ => resolveSubs_untouched wsMods bsubs bld rest _ _ h
           sub hnd.1, fun ht => absurd ht hneed⟩
    · have hne : head ≠ sub := fun he => hnd.1 (he ▸ hs)
      by_cases hneed : needsResolve (lookupD cfg head) = true
      · rw [if_pos hneed] at h
        cases hsc : (if bsubs then (bld (getOrName cfg head)).map Val.vobj
            else .ok (Val.vbuilder wsMods (getOrName cfg head))) with
        | error e => rw [hsc] at h; simp at h
        | ok v =>
          rw [hsc] at h
          have h' : resolveSubs wsMods bsubs bld rest (dictSet cfg head v) =
              .ok cfg' := h
          have hcfg1 : lookupD (dictSet cfg head v) sub = lookupD cfg sub :=
            lookupD_dictSet_ne cfg head sub v hne
          have hres := ih (dictSet cfg head v) cfg' hnd.2 h' sub hs
          rw [getOrName_congr _ _ sub hcfg1, hcfg1] at hres
          exact hres
      · rw [if_neg hneed] at h
        exact ih cfg cfg' hnd.2 h sub hs

/-- C4. For every submodule slot of the type being built: a concrete
(non-string) merged value is used as-is; an absent or string value is
resolved eagerly by recursively building the named (or slot-named) module in
the same workspace when the type's eager-build flag is set, and is replaced
by a deferred `Builder` handle bound to that workspace and name otherwise. -/
theorem build_submodule_slot_resolution (reg : Registry) (fuel : Nat)
    (mods : Modules) (name clsName : String)
    (base kwargs : List (String × Val)) (cls : ClsDesc) (obj : Obj)
    (hm : lookupD mods name = some (clsName, base))
    (hc : lookupD reg clsName = some cls)
    (hnd : cls.submodules.Nodup)
    (hb : Workspace.build reg (fuel + 1) mods name kwargs = .ok obj) :
    ∀ sub ∈ cls.submodules,
      (∀ v, lookupD (dictUpdate base kwargs) sub = some v → v.isStr = false →
        lookupD obj.config sub = some v)
      ∧ (needsResolve (lookupD (dictUpdate base kwargs) sub) = true →
          (cls.build_subs = true → ∃ so,
            Workspace.build reg fuel mods
              (getOrName (dictUpdate base kwargs) sub) [] = .ok so ∧
            lookupD obj.config sub = some (Val.vobj so))
          ∧ (cls.build_subs = false →
            lookupD obj.config sub =
              some (Val.vbuilder mods
                (getOrName (dictUpdate base kwargs) sub)))) := by
  intro sub hs
  have hres := (build_ok_inv reg fuel mods name clsName base kwargs cls obj
    hm hc hb).1
  have hslot := resolveSubs_slot mods cls.build_subs
    (fun t => Workspace.build reg fuel mods t []) cls.submodules
    (dictUpdate base kwargs) obj.config hnd hres sub hs
  constructor
  · intro v hv hvstr
    have hneed : needsResolve (lookupD (dictUpdate base kwargs) sub) =
        false := by
      rw [hv]
      cases v <;> simp [needsResolve, Val.isStr] at hvstr ⊢
    rw [hslot.1 hneed, hv]
  · exact hslot.2

def objLazySample : Obj :=
  .mk "Lazy" [("sub", Val.vbuilder modsSample "enc")] modsSample "lazy" none

/-- Witness for C4: an eagerly built submodule and a deferred Builder one,
at concrete configurations. -/
theorem build_submodule_slot_resolution_witness :
    lookupD objSample.config "sub" = some (Val.vobj encObjSample)
    ∧ lookupD objLazySample.config "sub" =
        some (Val.vbuilder modsSample "enc") := by
  constructor
  · have h := build_submodule_slot_resolution regSample 1 modsSample "main"
      "Model" [("lr", Val.vint 1), ("sub", Val.vstr "enc")]
      [("lr", Val.vint 2)] ⟨["sub"], true⟩ objSample rfl rfl (by decide)
      rfl "sub" (by decide)
    obtain ⟨so, hso, hlk⟩ := (h.2 rfl).1 rfl
    have he : Workspace.build regSample 1 modsSample "enc" [] =
        .ok encObjSample := rfl
    have : so = encObjSample := Except.ok.inj (hso.symm.trans he)
    subst this
    exact hlk
  · have h := build_submodule_slot_resolution regSample 1 modsSample "lazy"
      "Lazy" [("sub", Val.vstr "enc")] [] ⟨["sub"], false⟩ objLazySample
      rfl rfl (by decide) rfl "sub" (by decide)
    exact (h.2 rfl).2 rfl

/-! ## Claim theorem: save/load round trip (C1) -/

/-- C1. Save/load round-trip reproducibility: building a configured name
with overrides, saving the object, and loading the same name back yields the
very same object — same configuration (base parameters plus overrides),
class and spec — and this holds for any sequence of `register` calls applied
to the live workspace after the save, because `load` rebuilds inside an
ephemeral workspace seeded with the configuration table captured at save
time (`parseConf … = some mods` below says the captured environment is
exactly the save-time table).  `disk = none` reflects a workspace directory
with no `config.toml` written at load time; register calls alone never write
the file. -/
theorem build_save_load_roundtrip (reg : Registry) (fuel : Nat)
    (mods : Modules) (name : String) (kwargs : List (String × Val)) (obj : Obj)
    (hwf : wfMods mods = true)
    (hb : Workspace.build reg fuel mods name kwargs = .ok obj) :
    (∀ rs, Workspace.load reg fuel (applyRegisters mods rs) none
        (Workspace.save mods obj) name = .ok obj)
    ∧ parseConf (Workspace.save mods obj).env = some mods := by
  have hpc : parseConf (Workspace.save mods obj).env = some mods :=
    parseConf_config_dict mods hwf
  refine ⟨fun rs => ?_, hpc⟩
  have hargs : (Workspace.save mods obj).args = kwargs := by
    have hs := build_ok_spec reg fuel mods name kwargs obj hb
    simp only [Workspace.save, hs]
    cases kwargs <;> simp
  simp only [Workspace.load, hpc, hargs, hb, Except.mapError]

/-- Witness for C1 at a concrete registry, table and override set. -/
theorem build_save_load_roundtrip_witness :
    Workspace.build regSample 2 modsSample "main" [("lr", Val.vint 2)] =
      .ok objSample
    ∧ Workspace.load regSample 2 modsSample none
        (Workspace.save modsSample objSample) "main" = .ok objSample := by
  have hb : Workspace.build regSample 2 modsSample "main"
      [("lr", Val.vint 2)] = .ok objSample := rfl
  have h := build_save_load_roundtrip regSample 2 modsSample "main"
    [("lr", Val.vint 2)] objSample (by decide) hb
  exact ⟨hb, h.1 []⟩

/-- Witness for C2 at a concrete configured name and override set. -/
theorem build_merges_overrides_and_attaches_witness :
    Workspace.build regSample 2 modsSample "main" [("lr", Val.vint 2)] =
      .ok objSample
    ∧ lookupD (dictUpdate [("lr", Val.vint 1), ("sub", Val.vstr "enc")]
        [("lr", Val.vint 2)]) "lr" = some (Val.vint 2) := by
  have h := build_merges_overrides_and_attaches regSample 1 modsSample "main"
    "Model" [("lr", Val.vint 1), ("sub", Val.vstr "enc")] [("lr", Val.vint 2)]
    [("lr", Val.vint 2), ("sub", Val.vobj encObjSample)] ⟨["sub"], true⟩
    rfl rfl (by decide) rfl
  refine ⟨h.1.trans ?_, (h.2.1 "lr").trans rfl⟩
  rfl

/-- Witness for C3: an unconfigured name and a configured name whose class
is not registered. -/
theorem build_missing_config_and_missing_module_witness :
    Workspace.build regSample 3 modsSample "nonexistent" [] =
      .error (.notConfigured "nonexistent")
    ∧ Workspace.build regSample 3 [("main", ("UnknownType", []))] "main" [] =
      .error (.moduleNotFound "UnknownType") := by
  have h1 := (build_missing_config_and_missing_module regSample 2 modsSample
    "nonexistent" []).1 rfl
  have h2 := (build_missing_config_and_missing_module regSample 2
    [("main", ("UnknownType", []))] "main" []).2 "UnknownType" [] rfl rfl
  exact ⟨h1.1, h2.1⟩

/-! ## Stateful primitives: Range (C5) -/

/-- The number of elements of Python `range(start, stop, step)`. -/
def rangeLen (start stop step : Int) : Nat :=
  if 0 < step then ((stop - start + step - 1) / step).toNat
  else if step < 0 then ((start - stop + (-step) - 1) / (-step)).toNat
  else 0

/-- The elements of Python `range(start, stop, step)`. -/
def rangeList (start stop step : Int) : List Int :=
  (List.range (rangeLen start stop step)).map
    (fun (k : Nat) => start + step * (k : Int))

/-- The `Range` stateful resumable range: the live cursor `start`, the frozen
`step` and `stop`, the initial position `_start` (for `clear`) and the
breakable flag.  `@stateful('start', '_breakable')` persists `start` and
`_breakable`. -/
structure Range where
  start : Int
  step : Int
  stop : Int
  _start : Int
  _breakable : Bool

/-- `Range(start, stop)` (the two-argument `range` form; step 1). -/
def Range.make2 (start stop : Int) (breakable : Bool) : Range :=
  ⟨start, 1, stop, start, breakable⟩

/-- The sequence `range(self.start, self.stop, self.step)` frozen at the
start of one `__iter__` pass. -/
def Range.yieldSeq (r : Range) : List Int := rangeList r.start r.stop r.step

/-- One yield of `Range.__iter__`: before yielding `i`, the cursor is set to
`i + step` (non-breakable) or left at `i` (breakable). -/
def Range.stepYield (r : Range) (i : Int) : Range :=
  { r with start := i + (if r._breakable then 0 else r.step) }

/-- The `Range` state after one iteration pass has yielded its first `k`
elements (each yield updating the cursor in turn). -/
def Range.afterYields (r : Range) (k : Nat) : Range :=
  (r.yieldSeq.take k).foldl Range.stepYield r

/-- What `@stateful('start', '_breakable')` persists for a Range. -/
structure RangeState where
  start : Int
  _breakable : Bool

def Range.state_dict (r : Range) : RangeState := ⟨r.start, r._breakable⟩

def Range.clear (r : Range) : Range := { r with start := r._start }

theorem foldl_stepYield_last (l : List Int) (i : Int) :
    ∀ r : Range, l.getLast? = some i →
      l.foldl Range.stepYield r =
        { r with start := i + (if r._breakable then 0 else r.step) } := by
  induction l with
  | nil =>
    intro r h
    simp at h
  | cons a t ih =>
    intro r h
    cases t with
    | nil =>
      simp only [List.getLast?_singleton, Option.some.injEq] at h
      subst h
      rfl
    | cons b t' =>
      rw [List.getLast?_cons_cons] at h
      have := ih (Range.stepYield r a) h
      simpa [List.foldl_cons, Range.stepYield] using this

theorem rangeLen_one (start stop : Int) :
    rangeLen start stop 1 = (stop - start).toNat := by
  norm_num [rangeLen]

theorem mem_rangeList_one (start stop i : Int)
    (h : i ∈ rangeList start stop 1) : start ≤ i ∧ i < stop := by
  simp only [rangeList, List.mem_map, List.mem_range, rangeLen_one] at h
  obtain ⟨k, hk, hv⟩ := h
  omega

theorem rangeList_head_of_lt (start stop : Int) (h : start < stop) :
    (rangeList start stop 1).head? = some start := by
  have hpos : 0 < (stop - start).toNat := by omega
  obtain ⟨m, hm⟩ := Nat.exists_eq_succ_of_ne_zero (Nat.pos_iff_ne_zero.mp hpos)
  simp [rangeList, rangeLen_one, hm, List.range_succ_eq_map]

/-- C5. Cursor semantics of resumable ranges: after an iteration pass over
`range(start, stop)` has yielded `i` as its latest value, the persisted
cursor (the `start` slot of `state_dict`) is `i + 1` for a non-breakable
`Range` — so a fresh pass resumes just past `i` — and is `i` itself for a
breakable `Range` (`brange`) — so a fresh pass re-enters `i`. -/
theorem range_brange_cursor_semantics (start stop : Int) (k : Nat) (i : Int)
    (h : (((Range.make2 start stop false).yieldSeq).take (k + 1)).getLast? =
      some i) :
    ((Range.make2 start stop false).afterYields (k + 1)).state_dict.start =
      i + 1
    ∧ ((Range.make2 start stop true).afterYields (k + 1)).state_dict.start = i
    ∧ (i + 1 < stop →
        ((Range.make2 start stop false).afterYields (k + 1)).yieldSeq.head? =
          some (i + 1))
    ∧ ((Range.make2 start stop true).afterYields (k + 1)).yieldSeq.head? =
        some i := by
  have hmem : i ∈ (Range.make2 start stop false).yieldSeq :=
    List.take_subset (k + 1) _ (List.mem_of_getLast?_eq_some h)
  have hlt : i < stop := (mem_rangeList_one start stop i hmem).2
  have h' : (((Range.make2 start stop true).yieldSeq).take (k + 1)).getLast? =
      some i := h
  have hf := foldl_stepYield_last _ i (Range.make2 start stop false) h
  have hb := foldl_stepYield_last _ i (Range.make2 start stop true) h'
  have hfe : (Range.make2 start stop false).afterYields (k + 1) =
      ⟨i + 1, 1, stop, start, false⟩ := by
    rw [Range.afterYields, hf]
    rfl
  have hbe : (Range.make2 start stop true).afterYields (k + 1) =
      ⟨i, 1, stop, start, true⟩ := by
    rw [Range.afterYields, hb]
    show Range.mk (i + 0) 1 stop start true = Range.mk i 1 stop start true
    rw [Int.add_zero]
  refine ⟨by rw [hfe]; rfl, by rw [hbe]; rfl, fun hlt1 => ?_, ?_⟩
  · rw [hfe]
    exact rangeList_head_of_lt (i + 1) stop hlt1
  · rw [hbe]
    exact rangeList_head_of_lt i stop hlt

/-- Witness for C5: breaking out of `range(0, 10)` / `brange(0, 10)` after
the pass has yielded 5 leaves cursors 6 and 5 respectively, and fresh
passes start at 6 and 5. -/
theorem range_brange_cursor_semantics_witness :
    ((Range.make2 0 10 false).afterYields 6).state_dict.start = 6
    ∧ ((Range.make2 0 10 true).afterYields 6).state_dict.start = 5
    ∧ ((Range.make2 0 10 false).afterYields 6).yieldSeq.head? = some 6
    ∧ ((Range.make2 0 10 true).afterYields 6).yieldSeq.head? = some 5 := by
  have h := range_brange_cursor_semantics 0 10 5 5 (by decide)
  refine ⟨h.1.trans (by decide), h.2.1, ?_, h.2.2.2⟩
  have := h.2.2.1 (by decide)
  simpa using this

/-! ## Stateful primitives: Accumulator (C9) -/

/-- `Accumulator`: a stateful sum/count pair (`@stateful class Accumulator`
persists the slots `_sum` and `_cnt`).  Integer `+=` updates keep `_sum` an
integer; `mean` performs Python true division, represented exactly in `ℚ`. -/
structure Accumulator where
  _sum : Int
  _cnt : Int

/-- `Accumulator.__init__`: sum and count start at zero. -/
def Accumulator.init : Accumulator := ⟨0, 0⟩

/-- `acc += other`: add to the sum and bump the count. -/
def Accumulator.iadd (a : Accumulator) (other : Int) : Accumulator :=
  ⟨a._sum + other, a._cnt + 1⟩

/-- `Accumulator.clear()`: reset sum and count to zero. -/
def Accumulator.clear (_ : Accumulator) : Accumulator := ⟨0, 0⟩

def Accumulator.sum (a : Accumulator) : Int := a._sum

/-- `Accumulator.mean()`: `_sum / _cnt` when `_cnt > 0`, else `_sum`. -/
def Accumulator.mean (a : Accumulator) : ℚ :=
  if 0 < a._cnt then (a._sum : ℚ) / (a._cnt : ℚ) else (a._sum : ℚ)

/-- C9. `Accumulator.mean` never divides by zero: with a zero count (fresh
or after `clear()`) it returns the current sum (which is 0 in those states)
rather than attempting `_sum / 0`; only with a positive count does it return
sum divided by count. -/
theorem accumulator_mean_no_division_by_zero (a : Accumulator) :
    (a._cnt = 0 → a.mean = (a._sum : ℚ))
    ∧ Accumulator.init.mean = 0
    ∧ a.clear.mean = 0
    ∧ (0 < a._cnt → a.mean = (a._sum : ℚ) / (a._cnt : ℚ)) := by
  refine ⟨fun h => ?_, ?_, ?_, fun h => ?_⟩ <;>
    simp [Accumulator.mean, Accumulator.clear, Accumulator.init, *]

/-- Witness for C9 at concrete accumulator states. -/
theorem accumulator_mean_no_division_by_zero_witness :
    (Accumulator.mk 7 0).mean = 7 ∧ (Accumulator.mk 7 2).mean = 7 / 2 := by
  have h0 := accumulator_mean_no_division_by_zero ⟨7, 0⟩
  have h2 := accumulator_mean_no_division_by_zero ⟨7, 2⟩
  exact ⟨(h0.1 rfl).trans (by norm_num),
    (h2.2.2.2 (by norm_num)).trans (by norm_num)⟩

/-! ## Run sessions (C6, C7, C8, C10) -/

/-- A value held in a Run session's state dictionary: plain data (integers,
strings, booleans), live stateful objects (`Accumulator`, `Range` — the
objects exposing the `state_dict`/`load_state_dict` hooks installed by
`@stateful`), and extracted state mappings. -/
inductive RVal : Type where
  | int : Int → RVal
  | str : String → RVal
  | bool : Bool → RVal
  | acc : Accumulator → RVal
  | rng : Range → RVal
  | stateDict : List (String × RVal) → RVal

/-- `hasattr(v, 'state_dict')`: the live stateful objects expose the state
extraction hook. -/
def RVal.hasStateHook : RVal → Bool
  | .acc _ => true
  | .rng _ => true
  | _ => false

/-- `v.state_dict()` for the hooked values: `@stateful` extracts the
declared slots (`_sum`/`_cnt` for Accumulator, `start`/`_breakable` for
Range).  On values without the hook this is never called by the source;
it is the identity here and is always guarded by `hasStateHook`. -/
def RVal.state_dict : RVal → RVal
  | .acc a => .stateDict [("_sum", .int a._sum), ("_cnt", .int a._cnt)]
  | .rng r => .stateDict
      [("start", .int r.start), ("_breakable", .bool r._breakable)]
  | v => v

def RVal.asInt : RVal → Option Int
  | .int i => some i
  | _ => none

def RVal.asBool : RVal → Option Bool
  | .bool b => some b
  | _ => none

/-- `obj.load_state_dict(state)`: `@stateful` writes each declared slot back
from the state mapping.  `none` when the receiver has no such method or the
state lacks a slot (the source would raise). -/
def RVal.load_state_dict : RVal → RVal → Option RVal
  | .acc _, .stateDict st => do
    let s ← (lookupD st "_sum").bind RVal.asInt
    let c ← (lookupD st "_cnt").bind RVal.asInt
    some (.acc ⟨s, c⟩)
  | .rng r, .stateDict st => do
    let s ← (lookupD st "start").bind RVal.asInt
    let b ← (lookupD st "_breakable").bind RVal.asBool
    some (.rng { r with start := s, _breakable := b })
  | _, _ => none

/-- `str.startswith(pre)`. -/
def strStartsWith (s pre : String) : Bool := pre.data.isPrefixOf s.data

/-- Lexicographic comparison of character lists by code point: the order
Python uses to compare strings. -/
def charListLt : List Char → List Char → Bool
  | [], [] => false
  | [], _ :: _ => true
  | _ :: _, [] => false
  | a :: as, b :: bs =>
    if a.toNat < b.toNat then true
    else if b.toNat < a.toNat then false
    else charListLt as bs

/-- Python `a < b` on strings. -/
def strLt (a b : String) : Bool := charListLt a.data b.data

/-- Python `a <= b` on strings. -/
def strLe (a b : String) : Bool := !(strLt b a)

/-- Python `max` of two strings: keep the current value unless the new one
is strictly greater (lexicographic on code points). -/
def strMax (a b : String) : String := if strLt a b then b else a

/-- Python `max(ids)` over a list; `none` on the empty list. -/
def listMax : List String → Option String
  | [] => none
  | x :: xs => some (xs.foldl strMax x)

/-- `n` disambiguating underscore suffix characters. -/
def usSuffix : Nat → String
  | 0 => ""
  | n + 1 => "_" ++ usSuffix n

theorem filter_length_le {α : Type} (l : List α) (p q : α → Bool)
    (himp : ∀ a, q a = true → p a = true) :
    (l.filter q).length ≤ (l.filter p).length := by
  induction l with
  | nil => simp
  | cons b t ih =>
    rw [List.filter_cons, List.filter_cons]
    by_cases hq : q b = true
    · rw [if_pos hq, if_pos (himp b hq)]
      simpa using ih
    · rw [if_neg hq]
      split
      · exact le_trans ih (by simp)
      · exact ih

theorem filter_length_lt {α : Type} (l : List α) (p q : α → Bool)
    (himp : ∀ a, q a = true → p a = true)
    (a : α) (ha : a ∈ l) (hpa : p a = true) (hqa : q a = false) :
    (l.filter q).length < (l.filter p).length := by
  induction l with
  | nil => simp at ha
  | cons b t ih =>
    rw [List.filter_cons, List.filter_cons]
    rcases List.mem_cons.mp ha with rfl | hb
    · rw [if_pos hpa, if_neg (by simp [hqa])]
      exact Nat.lt_succ_of_le (filter_length_le t p q himp)
    · by_cases hq : q b = true
      · rw [if_pos hq, if_pos (himp b hq)]
        simpa using ih hb
      · rw [if_neg hq]
        split
        · exact lt_of_lt_of_le (ih hb) (by simp)
        · exact ih hb

/-- The `while ws.snapshot(self._id).exists(): self._id = self._id + '_'`
loop of `Run.__init__`: append underscores until the identifier names no
existing filesystem entry. -/
def freshId (existing : List String) (id : String) : String :=
  if h : id ∈ existing then freshId existing (id ++ "_") else id
termination_by (existing.filter (fun s => id.length ≤ s.length)).length
decreasing_by
  exact filter_length_lt existing
    (fun s => decide (id.length ≤ s.length))
    (fun s => decide ((id ++ "_").length ≤ s.length))
    (fun a hd => by
      simp only [decide_eq_true_eq, String.length_append] at hd ⊢
      omega)
    id h (by simp)
    (by
      have h1 : ("_" : String).length = 1 := rfl
      simp only [decide_eq_false_iff_not, String.length_append, h1]
      omega)

/-- An open Run session: session identifier, in-memory state dictionary,
auto-naming counter and the load-once `_seen` set. -/
structure RunS where
  id : String
  states : List (String × RVal)
  index : Nat
  seen : List String

/-- `Run.__init__(ws, tag, resume)`: `entries` are the
`(name, is_directory)` pairs found in the workspace's snapshot directory and
`dateStr` is the runtime timestamp.  With `resume`, reuse the maximal
existing session id matching `tag + '-'` when one exists, else mint
`tag + '-' + dateStr`; without `resume`, mint a fresh id and disambiguate
with underscores while the id names an existing entry. -/
def Run.init (entries : List (String × Bool)) (tag dateStr : String)
    (resume : Bool) : RunS :=
  let ids := (entries.filter
    (fun e => e.2 && strStartsWith e.1 (tag ++ "-"))).map Prod.fst
  let id0 := if resume then
      (match listMax ids with
       | some m => m
       | none => tag ++ "-" ++ dateStr)
    else tag ++ "-" ++ dateStr
  let id := if resume then id0 else freshId (entries.map Prod.fst) id0
  ⟨id, [], 0, []⟩

/-- The reserved states file of session `id`:
`snapshot/<id>/.states.pt`, as path segments under the snapshot root. -/
def statesFilePath (id : String) : List String := [id, ".states.pt"]

/-- `Run.__enter__`: if this session's states file exists, load the
persisted state dictionary. -/
def Run.enter (fs : List String → Option (List (String × RVal)))
    (r : RunS) : RunS :=
  match fs (statesFilePath r.id) with
  | some s => { r with states := s }
  | none => r

/-- The replacement loop of `Run.__exit__`: every entry exposing
`state_dict` is replaced by its extracted state snapshot. -/
def Run.exitStates (states : List (String × RVal)) :
    List (String × RVal) :=
  states.map (fun kv =>
    (kv.1, if kv.2.hasStateHook then kv.2.state_dict else kv.2))

/-- `Run.__exit__(exc_type, exc_val, exc_tb)`: regardless of the exception
(if any), extract hooked entries and persist the whole dictionary via the
Runtime codec to the session's reserved states file; the returned pair is
(file path, persisted contents). -/
def Run.exit (exc : Option String) (r : RunS) :
    List String × List (String × RVal) :=
  let _ := exc
  (statesFilePath r.id, Run.exitStates r.states)

/-- Auto-naming of `value`/`register`: `str(self._index)` when no name is
given, bumping the counter. -/
def autoName (r : RunS) (name? : Option String) : String × RunS :=
  match name? with
  | none => (toString r.index, { r with index := r.index + 1 })
  | some n => (n, r)

/-- `Run.value(value, name)`: return the persisted value the first time the
name is seen, else store and return the passed value. -/
def Run.value (r : RunS) (v : RVal) (name? : Option String) : RVal × RunS :=
  let p := autoName r name?
  let name := p.1
  let r := p.2
  match lookupD r.states name with
  | some w =>
    if name ∈ r.seen then (v, { r with states := dictSet r.states name v })
    else (w, { r with seen := name :: r.seen })
  | none => (v, { r with states := dictSet r.states name v })

/-- `_seen.add(name)`. -/
def seenAdd (name : String) (seen : List String) : List String :=
  if name ∈ seen then seen else name :: seen

inductive RunErr : Type where
  | restoreFailed : RunErr

/-- `Run.register(obj, name)`: restore the persisted state into the object
the first time the name is seen, then mark the name seen and store the
object. -/
def Run.register (r : RunS) (obj : RVal) (name? : Option String) :
    Except RunErr (RVal × RunS) :=
  let p := autoName r name?
  let name := p.1
  let r := p.2
  let objE : Except RunErr RVal :=
    match lookupD r.states name with
    | some w =>
      if name ∈ r.seen then .ok obj
      else
        match RVal.load_state_dict obj w with
        | some o => .ok o
        | none => .error .restoreFailed
    | none => .ok obj
  match objE with
  | .error e => .error e
  | .ok o =>
    .ok (o,
      { r with
        seen := seenAdd name r.seen
        states := dictSet r.states name o })

/-- `Run.acc(name)`. -/
def Run.acc (r : RunS) (name? : Option String) :
    Except RunErr (RVal × RunS) :=
  Run.register r (.acc Accumulator.init) name?

/-- `Run.range(start, stop, name)`. -/
def Run.range (r : RunS) (start stop : Int) (name? : Option String) :
    Except RunErr (RVal × RunS) :=
  Run.register r (.rng (Range.make2 start stop false)) name?

/-- `Run.brange(start, stop, name)`. -/
def Run.brange (r : RunS) (start stop : Int) (name? : Option String) :
    Except RunErr (RVal × RunS) :=
  Run.register r (.rng (Range.make2 start stop true)) name?

/-! ## Lexicographic maximum and fresh-id lemmas -/

theorem charListLt_self : ∀ l : List Char, charListLt l l = false := by
  intro l
  induction l with
  | nil => rfl
  | cons a as ih => simp [charListLt, ih]

theorem charListLt_asymm : ∀ l1 l2 : List Char,
    charListLt l1 l2 = true → charListLt l2 l1 = false := by
  intro l1
  induction l1 with
  | nil =>
    intro l2 h
    cases l2 with
    | nil => exact absurd h (by decide)
    | cons b bs => rfl
  | cons a as ih =>
    intro l2 h
    cases l2 with
    | nil => simp [charListLt] at h
    | cons b bs =>
      simp only [charListLt] at h ⊢
      by_cases hab : a.toNat < b.toNat
      · rw [if_neg (by omega), if_pos hab]
      · by_cases hba : b.toNat < a.toNat
        · rw [if_neg hab, if_pos hba] at h
          exact absurd h (by simp)
        · rw [if_neg hab, if_neg hba] at h
          rw [if_neg hba, if_neg hab]
          exact ih bs h

theorem charListLt_neg_trans : ∀ l1 l2 l3 : List Char,
    charListLt l2 l1 = false → charListLt l3 l2 = false →
    charListLt l3 l1 = false := by
  intro l1
  induction l1 with
  | nil =>
    intro l2 l3 _ _
    cases l3 <;> rfl
  | cons a as ih =>
    intro l2 l3 h1 h2
    cases l2 with
    | nil => simp [charListLt] at h1
    | cons b bs =>
      cases l3 with
      | nil => simp [charListLt] at h2
      | cons c cs =>
        simp only [charListLt] at h1 h2 ⊢
        by_cases hba : b.toNat < a.toNat
        · rw [if_pos hba] at h1
          exact absurd h1 (by simp)
        · by_cases hcb : c.toNat < b.toNat
          · rw [if_pos hcb] at h2
            exact absurd h2 (by simp)
          · rw [if_neg (by omega : ¬ c.toNat < a.toNat)]
            by_cases hac : a.toNat < c.toNat
            · rw [if_pos hac]
            · rw [if_neg hac]
              rw [if_neg hba, if_neg (by omega : ¬ a.toNat < b.toNat)] at h1
              rw [if_neg hcb, if_neg (by omega : ¬ b.toNat < c.toNat)] at h2
              exact ih bs cs h1 h2

theorem strLe_refl (a : String) : strLe a a = true := by
  simp [strLe, strLt, charListLt_self]

theorem strLe_of_strLt (a b : String) (h : strLt a b = true) :
    strLe a b = true := by
  simp only [strLe, strLt] at h ⊢
  rw [charListLt_asymm a.data b.data h]
  rfl

theorem strLe_trans (a b c : String) (h1 : strLe a b = true)
    (h2 : strLe b c = true) : strLe a c = true := by
  simp only [strLe, strLt, Bool.not_eq_true'] at h1 h2 ⊢
  exact charListLt_neg_trans a.data b.data c.data h1 h2

theorem strMax_eq_or (a b : String) : strMax a b = a ∨ strMax a b = b := by
  unfold strMax
  split
  · exact Or.inr rfl
  · exact Or.inl rfl

theorem le_strMax_left (a b : String) : strLe a (strMax a b) = true := by
  unfold strMax
  by_cases h : strLt a b = true
  · rw [if_pos h]
    exact strLe_of_strLt a b h
  · rw [if_neg h]
    exact strLe_refl a

theorem le_strMax_right (a b : String) : strLe b (strMax a b) = true := by
  unfold strMax
  by_cases h : strLt a b = true
  · rw [if_pos h]
    exact strLe_refl b
  · rw [if_neg h]
    simp only [strLe]
    simp only [Bool.not_eq_true] at h
    rw [h]
    rfl

theorem foldl_strMax_spec : ∀ (t : List String) (a : String),
    (t.foldl strMax a = a ∨ t.foldl strMax a ∈ t)
    ∧ strLe a (t.foldl strMax a) = true
    ∧ ∀ x ∈ t, strLe x (t.foldl strMax a) = true := by
  intro t
  induction t with
  | nil =>
    intro a
    exact ⟨Or.inl rfl, strLe_refl a, by simp⟩
  | cons b t' ih =>
    intro a
    obtain ⟨h1, h2, h3⟩ := ih (strMax a b)
    rw [List.foldl_cons]
    refine ⟨?_, strLe_trans a (strMax a b) _ (le_strMax_left a b) h2, ?_⟩
    · rcases h1 with h | h
      · rw [h]
        rcases strMax_eq_or a b with hc | hc
        · rw [hc]
          exact Or.inl rfl
        · rw [hc]
          exact Or.inr (List.mem_cons_self b t')
      · exact Or.inr (List.mem_cons_of_mem b h)
    · intro x hx
      rcases List.mem_cons.mp hx with rfl | hx
      · exact strLe_trans x (strMax a x) _ (le_strMax_right a x) h2
      · exact h3 x hx

/-- Python `max(ids)`: a member of the list that bounds every member
lexicographically. -/
theorem listMax_spec (l : List String) (m : String)
    (h : listMax l = some m) : m ∈ l ∧ ∀ x ∈ l, strLe x m = true := by
  cases l with
  | nil => simp [listMax] at h
  | cons a t =>
    simp only [listMax, Option.some.injEq] at h
    subst h
    obtain ⟨h1, h2, h3⟩ := foldl_strMax_spec t a
    constructor
    · rcases h1 with h | h
      · rw [h]
        exact List.mem_cons_self a t
      · exact List.mem_cons_of_mem a h
    · intro x hx
      rcases List.mem_cons.mp hx with rfl | hx
      · exact h2
      · exact h3 x hx

theorem freshId_unfold (ex : List String) (id : String) :
    freshId ex id = if id ∈ ex then freshId ex (id ++ "_") else id := by
  rw [freshId]
  split <;> rename_i h <;> simp [h]

/-- The disambiguation loop: the returned identifier is the minted one plus
some number of underscores, names no existing entry, and every shorter
candidate was in use. -/
theorem freshId_spec (ex : List String) (id : String) :
    ∃ n, freshId ex id = id ++ usSuffix n
      ∧ freshId ex id ∉ ex
      ∧ ∀ m, m < n → (id ++ usSuffix m) ∈ ex := by
  suffices hk : ∀ (k : Nat) (idv : String),
      (ex.filter (fun s => idv.length ≤ s.length)).length ≤ k →
      ∃ n, freshId ex idv = idv ++ usSuffix n ∧ freshId ex idv ∉ ex ∧
        ∀ m, m < n → (idv ++ usSuffix m) ∈ ex from hk _ id le_rfl
  intro k
  induction k with
  | zero =>
    intro idv hle
    have hnotin : idv ∉ ex := by
      intro hin
      have hmem : idv ∈ ex.filter (fun s => idv.length ≤ s.length) :=
        List.mem_filter.mpr ⟨hin, by simp⟩
      have := List.length_pos.mpr (List.ne_nil_of_mem hmem)
      omega
    have he : freshId ex idv = idv := by
      rw [freshId_unfold, if_neg hnotin]
    refine ⟨0, ?_, ?_, fun m hm => absurd hm (Nat.not_lt_zero m)⟩
    · rw [he, usSuffix, String.append_empty]
    · rw [he]
      exact hnotin
  | succ k ihk =>
    intro idv hle
    by_cases hin : idv ∈ ex
    · have hdec : (ex.filter
          (fun s => (idv ++ "_").length ≤ s.length)).length
          < (ex.filter (fun s => idv.length ≤ s.length)).length :=
        filter_length_lt ex _ _
          (fun a hd => by
            simp only [decide_eq_true_eq, String.length_append] at hd ⊢
            omega)
          idv hin (by simp)
          (by
            have h1 : ("_" : String).length = 1 := rfl
            simp only [decide_eq_false_iff_not, String.length_append, h1]
            omega)
      obtain ⟨n, h1, h2, h3⟩ := ihk (idv ++ "_") (by omega)
      have hstep : freshId ex idv = freshId ex (idv ++ "_") := by
        rw [freshId_unfold, if_pos hin]
      refine ⟨n + 1, ?_, ?_, ?_⟩
      · rw [hstep, h1, String.append_assoc]
        rfl
      · rw [hstep]
        exact h2
      · intro m hm
        cases m with
        | zero =>
          rw [usSuffix, String.append_empty]
          exact hin
        | succ m' =>
          have hmem := h3 m' (by omega)
          rw [String.append_assoc] at hmem
          exact hmem
    · have he : freshId ex idv = idv := by
        rw [freshId_unfold, if_neg hin]
      refine ⟨0, ?_, ?_, fun m hm => absurd hm (Nat.not_lt_zero m)⟩
      · rw [he, usSuffix, String.append_empty]
      · rw [he]
        exact hin

/-! ## Claim theorem: Run session id selection (C6) -/

/-- C6. `Run.__init__` id selection: with `resume=True` and at least one
session directory matching `tag + '-'`, the lexicographically maximal such
identifier is reused and scope entry loads its persisted state dictionary;
with no such directory a fresh `tag + '-' + timestamp` id is minted; with
`resume=False` a fresh id is minted and, while an entry with that name
exists, underscores are appended until the identifier is unused. -/
theorem run_session_id_selection (entries : List (String × Bool))
    (tag dateStr : String)
    (fs : List String → Option (List (String × RVal))) :
    (((entries.filter
        (fun e => e.2 && strStartsWith e.1 (tag ++ "-"))).map Prod.fst)
          ≠ [] →
      ∃ m, listMax ((entries.filter
            (fun e => e.2 && strStartsWith e.1 (tag ++ "-"))).map Prod.fst)
          = some m
        ∧ (Run.init entries tag dateStr true).id = m
        ∧ m ∈ (entries.filter
            (fun e => e.2 && strStartsWith e.1 (tag ++ "-"))).map Prod.fst
        ∧ (∀ x ∈ (entries.filter
            (fun e => e.2 && strStartsWith e.1 (tag ++ "-"))).map Prod.fst,
            strLe x m = true)
        ∧ ∀ S, fs (statesFilePath m) = some S →
            (Run.enter fs (Run.init entries tag dateStr true)).states = S)
    ∧ (((entries.filter
        (fun e => e.2 && strStartsWith e.1 (tag ++ "-"))).map Prod.fst)
          = [] →
        (Run.init entries tag dateStr true).id = tag ++ "-" ++ dateStr)
    ∧ (∃ n, (Run.init entries tag dateStr false).id =
          (tag ++ "-" ++ dateStr) ++ usSuffix n
        ∧ (Run.init entries tag dateStr false).id ∉ entries.map Prod.fst
        ∧ ∀ m, m < n →
            ((tag ++ "-" ++ dateStr) ++ usSuffix m) ∈ entries.map Prod.fst)
    := by
  refine ⟨fun hne => ?_, fun hnil => ?_, ?_⟩
  · cases hl : listMax ((entries.filter
        (fun e => e.2 && strStartsWith e.1 (tag ++ "-"))).map Prod.fst) with
    | none =>
      cases hi : (entries.filter
          (fun e => e.2 && strStartsWith e.1 (tag ++ "-"))).map Prod.fst with
      | nil => exact absurd hi hne
      | cons a t =>
        rw [hi] at hl
        simp [listMax] at hl
    | some m =>
      have hid : (Run.init entries tag dateStr true).id = m := by
        simp [Run.init, hl]
      obtain ⟨hmem, hub⟩ := listMax_spec _ m hl
      refine ⟨m, rfl, hid, hmem, hub, fun S hS => ?_⟩
      simp [Run.enter, hid, hS]
  · simp [Run.init, hnil, listMax]
  · obtain ⟨n, h1, h2, h3⟩ :=
      freshId_spec (entries.map Prod.fst) (tag ++ "-" ++ dateStr)
    have hid : (Run.init entries tag dateStr false).id =
        freshId (entries.map Prod.fst) (tag ++ "-" ++ dateStr) := by
      simp [Run.init]
    exact ⟨n, by rw [hid, h1], by rw [hid]; exact h2, h3⟩

/-! ## Claim theorem: Run.value resume idempotence (C7) -/

/-- C7. Inside an open Run session, `value(default, name)` returns the
previously persisted value stored under the name when one exists (first
access), ignoring the passed default, and otherwise stores the default and
returns it; composing a first session that stores a value, scope exit, and
a resumed session shows the second session's `value` call ignoring its
default in favour of the persisted one. -/
theorem run_value_resume_idempotence (r : RunS) (name : String)
    (d w : RVal) :
    (lookupD r.states name = some w → name ∉ r.seen →
      (Run.value r d (some name)).1 = w
      ∧ (Run.value r d (some name)).2.states = r.states)
    ∧ (lookupD r.states name = none →
      (Run.value r d (some name)).1 = d
      ∧ lookupD (Run.value r d (some name)).2.states name = some d)
    ∧ (∀ (v : RVal) (id1 id2 : String), v.hasStateHook = false →
        (Run.value
          (Run.enter
            (fun p => if p = statesFilePath id2
              then some (Run.exit none
                ((Run.value ⟨id1, [], 0, []⟩ v (some name)).2)).2
              else none)
            ⟨id2, [], 0, []⟩)
          d (some name)).1 = v) := by
  refine ⟨fun h hns => ?_, fun h => ?_, fun v id1 id2 hv => ?_⟩
  · simp [Run.value, autoName, h, hns]
  · simp [Run.value, autoName, h, lookupD_dictSet_self]
  · simp [Run.value, Run.enter, Run.exit, Run.exitStates, autoName,
      statesFilePath, lookupD, dictSet, hv]

/-! ## Claim theorem: Run.__exit__ extraction and persistence (C8) -/

theorem state_dict_no_hook (v : RVal) (h : v.hasStateHook = true) :
    v.state_dict.hasStateHook = false := by
  cases v <;> simp [RVal.hasStateHook, RVal.state_dict] at h ⊢

theorem lookupD_exitStates (l : List (String × RVal)) (k : String) :
    lookupD (Run.exitStates l) k =
      (lookupD l k).map
        (fun v => if v.hasStateHook then v.state_dict else v) := by
  induction l with
  | nil => rfl
  | cons kv t ih =>
    simp only [Run.exitStates, List.map_cons, lookupD] at ih ⊢
    by_cases h : kv.1 = k
    · simp [h]
    · simp [h, ih]

/-- C8. On every Run scope exit — with or without an exception — every
state-dictionary entry exposing the state-extraction hook is replaced by its
extracted state snapshot (so no live object appears in the persisted dict),
entries without the hook are persisted as they are, and the whole dictionary
is persisted to the session's reserved `.states` file under its snapshot
directory. -/
theorem run_exit_extracts_and_persists (r : RunS) (exc exc' : Option String) :
    (Run.exit exc r).1 = statesFilePath r.id
    ∧ Run.exit exc r = Run.exit exc' r
    ∧ (∀ k v, (k, v) ∈ (Run.exit exc r).2 → v.hasStateHook = false)
    ∧ (∀ k v, lookupD r.states k = some v → v.hasStateHook = true →
        lookupD (Run.exit exc r).2 k = some v.state_dict)
    ∧ (∀ k v, lookupD r.states k = some v → v.hasStateHook = false →
        lookupD (Run.exit exc r).2 k = some v) := by
  refine ⟨rfl, rfl, ?_, ?_, ?_⟩
  · intro k v hmem
    simp only [Run.exit, Run.exitStates, List.mem_map] at hmem
    obtain ⟨⟨k0, v0⟩, hmem0, heq⟩ := hmem
    injection heq with hk hv
    subst hv
    cases hh : v0.hasStateHook with
    | true =>
      simp only [hh, if_true]
      exact state_dict_no_hook v0 hh
    | false =>
      simp only [hh, if_false]
      exact hh
  · intro k v hvk hhook
    show lookupD (Run.exitStates r.states) k = some v.state_dict
    rw [lookupD_exitStates, hvk]
    simp [hhook]
  · intro k v hvk hhook
    show lookupD (Run.exitStates r.states) k = some v
    rw [lookupD_exitStates, hvk]
    simp [hhook]

/-! ## Claim theorem: persisted state consumed at most once (C10) -/

theorem mem_seenAdd (name : String) (seen : List String) :
    name ∈ seenAdd name seen := by
  unfold seenAdd
  split
  · assumption
  · exact List.mem_cons_self name seen

/-- C10. Within one open session the persisted state for a name is consumed
at most once: the first `value` (resp. `register`) call returns the
persisted value (resp. restores it into the object) and marks the name
seen; any later call with the same name overwrites the entry with the newly
passed value or object instead of returning the previously persisted
state. -/
theorem run_state_consumed_once (r : RunS) (name : String) (w : RVal)
    (hw : lookupD r.states name = some w) (hns : name ∉ r.seen) :
    (∀ d d2 : RVal,
      (Run.value r d (some name)).1 = w
      ∧ name ∈ (Run.value r d (some name)).2.seen
      ∧ (Run.value ((Run.value r d (some name)).2) d2 (some name)).1 = d2
      ∧ lookupD ((Run.value ((Run.value r d (some name)).2) d2
          (some name)).2).states name = some d2)
    ∧ (∀ obj o1 : RVal, RVal.load_state_dict obj w = some o1 →
        ∃ r1, Run.register r obj (some name) = .ok (o1, r1)
          ∧ name ∈ r1.seen
          ∧ lookupD r1.states name = some o1
          ∧ ∀ obj2 : RVal, ∃ r2,
              Run.register r1 obj2 (some name) = .ok (obj2, r2)
              ∧ lookupD r2.states name = some obj2) := by
  constructor
  · intro d d2
    have h1 : Run.value r d (some name) =
        (w, { r with seen := name :: r.seen }) := by
      simp [Run.value, autoName, hw, hns]
    have h2 : Run.value { r with seen := name :: r.seen } d2 (some name) =
        (d2,
          { r with
            seen := name :: r.seen
            states := dictSet r.states name d2 }) := by
      simp [Run.value, autoName, hw]
    refine ⟨by rw [h1], by rw [h1]; exact List.mem_cons_self name r.seen,
      ?_, ?_⟩
    · rw [h1, h2]
    · rw [h1, h2]
      exact lookupD_dictSet_self r.states name d2
  · intro obj o1 hload
    have h1 : Run.register r obj (some name) =
        .ok (o1,
          { r with
            seen := seenAdd name r.seen
            states := dictSet r.states name o1 }) := by
      simp [Run.register, autoName, hw, hns, hload]
    refine ⟨_, h1, mem_seenAdd name r.seen,
      lookupD_dictSet_self r.states name o1, fun obj2 => ?_⟩
    have h2 : Run.register
        { r with
          seen := seenAdd name r.seen
          states := dictSet r.states name o1 } obj2 (some name) =
        .ok (obj2,
          { r with
            seen := seenAdd name (seenAdd name r.seen)
            states := dictSet (dictSet r.states name o1) name obj2 }) := by
      simp [Run.register, autoName, lookupD_dictSet_self,
        mem_seenAdd name r.seen]
    exact ⟨_, h2, lookupD_dictSet_self _ name obj2⟩

/-! ## Witnesses for the Run session claims -/

def entriesA : List (String × Bool) :=
  [("t-1", true), ("t-2", true), ("x", false)]

def entriesB : List (String × Bool) := [("x", true)]

def entriesC : List (String × Bool) := [("t-3", true)]

/-- Witness for C6: resuming picks the maximal matching session id, a fresh
id is minted when none match, and `resume=False` avoids existing entries. -/
theorem run_session_id_selection_witness :
    (Run.init entriesA "t" "3" true).id = "t-2"
    ∧ (Run.init entriesB "t" "3" true).id = "t-3"
    ∧ (Run.init entriesC "t" "3" false).id ∉ entriesC.map Prod.fst := by
  refine ⟨?_, ?_, ?_⟩
  · obtain ⟨m, hm, hid, _⟩ :=
      (run_session_id_selection entriesA "t" "3" (fun _ => none)).1
        (by decide)
    have hm2 : listMax ((entriesA.filter
        (fun e => e.2 && strStartsWith e.1 ("t" ++ "-"))).map Prod.fst) =
        some "t-2" := by decide
    have hmeq : "t-2" = m := Option.some.inj (hm2.symm.trans hm)
    rw [hid, ← hmeq]
  · have hB := (run_session_id_selection entriesB "t" "3"
      (fun _ => none)).2.1 (by decide)
    exact hB.trans (by decide)
  · obtain ⟨n, _, h2, _⟩ :=
      (run_session_id_selection entriesC "t" "3" (fun _ => none)).2.2
    exact h2

/-- Witness for C7: a persisted value is returned in place of the default,
both within a session and across an exit/enter cycle. -/
theorem run_value_resume_idempotence_witness :
    (Run.value ⟨"s-1", [("lr", RVal.int 5)], 0, []⟩ (RVal.int 99)
        (some "lr")).1 = RVal.int 5
    ∧ (Run.value
        (Run.enter
          (fun p => if p = statesFilePath "s-2"
            then some (Run.exit none
              ((Run.value ⟨"s-1", [], 0, []⟩ (RVal.int 5) (some "lr")).2)).2
            else none)
          ⟨"s-2", [], 0, []⟩)
        (RVal.int 99) (some "lr")).1 = RVal.int 5 := by
  have h := run_value_resume_idempotence
    ⟨"s-1", [("lr", RVal.int 5)], 0, []⟩ "lr" (RVal.int 99) (RVal.int 5)
  exact ⟨(h.1 rfl (by decide)).1, h.2.2 (RVal.int 5) "s-1" "s-2" rfl⟩

def runStateSample : RunS :=
  ⟨"train-1", [("a", RVal.acc ⟨3, 2⟩), ("k", RVal.int 7)], 0, []⟩

/-- Witness for C8: exit under an exception extracts the live accumulator
into its state dict, keeps the plain value, and writes the reserved states
file of the session. -/
theorem run_exit_extracts_and_persists_witness :
    (Run.exit (some "KeyboardInterrupt") runStateSample).1 =
      ["train-1", ".states.pt"]
    ∧ Run.exit (some "KeyboardInterrupt") runStateSample =
        Run.exit none runStateSample
    ∧ lookupD (Run.exit (some "KeyboardInterrupt") runStateSample).2 "a" =
        some (RVal.stateDict [("_sum", RVal.int 3), ("_cnt", RVal.int 2)])
    ∧ lookupD (Run.exit (some "KeyboardInterrupt") runStateSample).2 "k" =
        some (RVal.int 7) := by
  have h := run_exit_extracts_and_persists runStateSample
    (some "KeyboardInterrupt") none
  refine ⟨h.1.trans rfl, h.2.1, ?_, ?_⟩
  · have ha := h.2.2.2.1 "a" (RVal.acc ⟨3, 2⟩) rfl rfl
    exact ha.trans rfl
  · exact h.2.2.2.2 "k" (RVal.int 7) rfl rfl

/-- Witness for C10: the persisted value is returned once, then the same
name is overwritten; a register call restores the persisted state into a
fresh accumulator exactly once. -/
theorem run_state_consumed_once_witness :
    (Run.value ⟨"s", [("n", RVal.int 1)], 0, []⟩ (RVal.int 9)
        (some "n")).1 = RVal.int 1
    ∧ (Run.value ((Run.value ⟨"s", [("n", RVal.int 1)], 0, []⟩ (RVal.int 9)
        (some "n")).2) (RVal.int 2) (some "n")).1 = RVal.int 2
    ∧ (∃ r1, Run.register ⟨"s", [("a", RVal.stateDict
          [("_sum", RVal.int 3), ("_cnt", RVal.int 2)])], 0, []⟩
        (RVal.acc Accumulator.init) (some "a") =
          .ok (RVal.acc ⟨3, 2⟩, r1)
        ∧ lookupD r1.states "a" = some (RVal.acc ⟨3, 2⟩)) := by
  have hv := run_state_consumed_once ⟨"s", [("n", RVal.int 1)], 0, []⟩ "n"
    (RVal.int 1) rfl (by decide)
  have hr := run_state_consumed_once
    ⟨"s", [("a", RVal.stateDict [("_sum", RVal.int 3),
      ("_cnt", RVal.int 2)])], 0, []⟩ "a"
    (RVal.stateDict [("_sum", RVal.int 3), ("_cnt", RVal.int 2)]) rfl
    (by decide)
  obtain ⟨r1, h1, _, h3, _⟩ := hr.2 (RVal.acc Accumulator.init)
    (RVal.acc ⟨3, 2⟩) rfl
  exact ⟨(hv.1 (RVal.int 9) (RVal.int 2)).1,
    (hv.1 (RVal.int 9) (RVal.int 2)).2.2.1, ⟨r1, h1, h3⟩⟩

end Fret
